import Mathlib

/-!
Verification of the duckdb-ann vector index core against its specification.

The Rust sources are shallowly embedded:
* f32 values are modelled as rationals; every concrete input used in a
  counterexample or witness is exactly representable in f32 and all f32
  operations on it are exact, so the rational model agrees with the code there.
* machine integers are modelled as Nat (with explicit bounds where overflow
  or byte encoding matters);
* the byte-level persistence format is modelled as lists of Nat bytes;
* fallible operations return Except or Option.

The graph engine itself (the external diskann crate: greedy search, robust
prune) is not part of this repository; where a claim depends on it, the
missing part is modelled from the specification and marked as such.
-/

namespace DuckdbAnn

/-- Distance metric, from index_manager.rs (enum Metric). -/
inductive Metric where
  | L2
  | InnerProduct
deriving DecidableEq, Repr

/-- Squared L2 distance, from index_manager.rs l2_distance:
zip of the two slices, sum of squared differences. -/
def l2_distance (a b : List ℚ) : ℚ :=
  ((a.zip b).map (fun p => (p.1 - p.2) * (p.1 - p.2))).sum

/-- Inner product, from index_manager.rs inner_product. -/
def inner_product (a b : List ℚ) : ℚ :=
  ((a.zip b).map (fun p => p.1 * p.2)).sum

/-- Largest finite f32 value, used by the source as a fold seed
(f32::MAX) and as the missing-vector distance. -/
def f32Max : ℚ := (2 ^ 24 - 1) * 2 ^ 104

/-- Smallest finite f32 value (f32::MIN = -f32::MAX). -/
def f32Min : ℚ := -f32Max

/-- SQ8 quantization parameters, from provider.rs SQ8Params. -/
structure SQ8Params where
  min : List ℚ
  scale : List ℚ
deriving DecidableEq, Repr

/-- Quantized storage, from provider.rs QuantizedStorage:
one byte per dimension per vector, plus the affine parameters. -/
structure QuantizedStorage where
  data : List ℕ
  params : SQ8Params
deriving DecidableEq, Repr

/-- The in-memory provider state, from provider.rs Inner: a flat f32
buffer, per-node adjacency lists, a live count, start points, the fixed
dimension and metric, and optional quantized storage.  The adjacency map
is modelled as a list of rows indexed by node id; an id at or beyond the
list length corresponds to an absent map entry. -/
structure Provider where
  vectors : List ℚ
  adjacency : List (List ℕ)
  count : ℕ
  start_point_ids : List ℕ
  max_degree : ℕ
  dimension : ℕ
  metric : Metric
  quantized : Option QuantizedStorage
deriving DecidableEq, Repr

/-- Rounding of a nonnegative rational as the f32 round method does
(half away from zero; all values rounded here are nonnegative). -/
def roundQ (q : ℚ) : ℤ := ⌊q + 1 / 2⌋

/-- clamp on rationals, as f32 clamp. -/
def clampQ (x lo hi : ℚ) : ℚ := min (max x lo) hi

/-- Per-dimension minima over the live prefix, from provider.rs
quantize_sq8: a fold starting at f32::MAX taking the smaller value. -/
def sq8Mins (vecs : List ℚ) (count dim : ℕ) (d : ℕ) : ℚ :=
  ((List.range count).map (fun i => vecs.getD (i * dim + d) 0)).foldl min f32Max

/-- Per-dimension maxima over the live prefix, from provider.rs
quantize_sq8: a fold starting at f32::MIN taking the larger value. -/
def sq8Maxs (vecs : List ℚ) (count dim : ℕ) (d : ℕ) : ℚ :=
  ((List.range count).map (fun i => vecs.getD (i * dim + d) 0)).foldl max f32Min

/-- Per-dimension scale, from provider.rs quantize_sq8:
the range when it is positive, else 1.0. -/
def sq8Scale (vecs : List ℚ) (count dim : ℕ) (d : ℕ) : ℚ :=
  let range := sq8Maxs vecs count dim d - sq8Mins vecs count dim d
  if range > 0 then range else 1

/-- One quantized byte, from provider.rs quantize_sq8:
normalized = (v - min) / scale, then (normalized * 255).round()
clamped to [0, 255] and narrowed to u8. -/
def sq8Byte (vecs : List ℚ) (count dim : ℕ) (i d : ℕ) : ℕ :=
  let v := vecs.getD (i * dim + d) 0
  let normalized := (v - sq8Mins vecs count dim d) / sq8Scale vecs count dim d
  (max 0 (min (roundQ (normalized * 255)) 255)).toNat

/-- quantize_sq8 from provider.rs: no-op on an empty store or zero
dimension; otherwise computes per-dimension min, max and scale over the
live prefix, encodes every live value to a byte, and replaces the
quantized storage.  The f32 store is read but never written. -/
def quantize_sq8 (p : Provider) : Provider :=
  if p.count = 0 ∨ p.dimension = 0 then p
  else
    let dim := p.dimension
    let mins := (List.range dim).map (sq8Mins p.vectors p.count dim)
    let scale := (List.range dim).map (sq8Scale p.vectors p.count dim)
    let data := (List.range (p.count * dim)).map
      (fun j => sq8Byte p.vectors p.count dim (j / dim) (j % dim))
    { p with quantized := some ⟨data, ⟨mins, scale⟩⟩ }

/-- get_vector from provider.rs: full-precision slice when the flat
buffer covers the row, else dequantized bytes when quantized storage
covers it, else None. -/
def getVector (p : Provider) (id : ℕ) : Option (List ℚ) :=
  let dim := p.dimension
  let offset := id * dim
  if offset + dim ≤ p.vectors.length then
    some ((p.vectors.drop offset).take dim)
  else
    match p.quantized with
    | some q =>
        if offset + dim ≤ q.data.length then
          some ((List.range dim).map
            (fun d => (q.data.getD (offset + d) 0 : ℚ) / 255 *
              q.params.scale.getD d 0 + q.params.min.getD d 0))
        else none
    | none => none

/-- get_neighbors from provider.rs, as the list of neighbors of a node
(an absent adjacency entry reads as no neighbors). -/
def getNeighbors (p : Provider) (id : ℕ) : List ℕ :=
  p.adjacency.getD id []

/-- The in-memory index, from index_manager.rs InMemoryIndex.  The
DiskANN engine handle is modelled by the graphReady flag (None vs Some
in the source); next_label is the monotone label counter. -/
structure InMemoryIndex where
  dimension : ℕ
  metric : Metric
  max_degree : ℕ
  build_complexity : ℕ
  alpha : ℚ
  provider : Provider
  graphReady : Bool
  next_label : ℕ
deriving DecidableEq, Repr

/-- single_vector_distance from index_manager.rs: the direct distance of
the query to vector 0, negated inner product under IP, f32::MAX when the
vector is missing. -/
def single_vector_distance (s : InMemoryIndex) (query : List ℚ) : ℚ :=
  match getVector s.provider 0 with
  | some v =>
      match s.metric with
      | Metric.L2 => l2_distance query v
      | Metric.InnerProduct => -inner_product query v
  | none => f32Max

/-- Comparison by distance used to order search results. -/
def distLE (a b : ℕ × ℚ) : Prop := a.2 ≤ b.2

instance : DecidableRel distLE := fun a b => inferInstanceAs (Decidable (a.2 ≤ b.2))

instance : IsTotal (ℕ × ℚ) distLE := ⟨fun a b => le_total a.2 b.2⟩

instance : IsTrans (ℕ × ℚ) distLE := ⟨fun _ _ _ h h' => le_trans h h'⟩

/-- Keep the first occurrence of every id in a scored list. -/
def dedupById : List (ℕ × ℚ) → List (ℕ × ℚ)
  | [] => []
  | x :: xs => x :: dedupById (xs.filter (fun y => y.1 ≠ x.1))
termination_by l => l.length
decreasing_by
  simp only [List.length_cons]
  exact Nat.lt_succ_of_le (List.length_filter_le _ _)

/-- Distance of the query to a node, under the engine-internal
convention of the specification (section 4.3): squared L2, or negated
inner product so that smaller is closer. -/
def nodeDist (p : Provider) (metric : Metric) (q : List ℚ) (id : ℕ) : ℚ :=
  match getVector p id with
  | some v =>
      match metric with
      | Metric.L2 => l2_distance q v
      | Metric.InnerProduct => -inner_product q v
  | none => f32Max

/-- Modelled from the spec: one expansion step of the greedy best-first
search of the graph engine (the diskann crate, not part of this
repository; spec section 4.4).  Pops the closest frontier entry; if
unvisited, marks it visited, scores its unvisited neighbors, inserts
them into the frontier (kept to the best L) and into the scored
accumulator. -/
def walk (p : Provider) (metric : Metric) (q : List ℚ) (L : ℕ) :
    ℕ → List (ℕ × ℚ) → List ℕ → List (ℕ × ℚ) → List (ℕ × ℚ)
  | 0, _, _, scored => scored
  | Nat.succ fuel, frontier, visited, scored =>
      match List.insertionSort distLE frontier with
      | [] => scored
      | c :: rest =>
          if c.1 ∈ visited then
            walk p metric q L fuel rest visited scored
          else
            let nbrs := (getNeighbors p c.1).filter (fun m => m ∉ visited)
            let newScores := nbrs.map (fun m => (m, nodeDist p metric q m))
            walk p metric q L fuel
              ((List.insertionSort distLE (rest ++ newScores)).take L)
              (c.1 :: visited) (scored ++ newScores)

/-- Modelled from the spec: the graph engine search entry point (the
diskann crate, not part of this repository; spec section 4.4).  Seeds
the frontier with the entry points, runs the greedy walk, and returns
the k best scored nodes sorted ascending by distance with one entry per
id. -/
def engineSearch (p : Provider) (metric : Metric) (q : List ℚ) (k L : ℕ) :
    List (ℕ × ℚ) :=
  let seeds := p.start_point_ids.map (fun id => (id, nodeDist p metric q id))
  let scored := walk p metric q L (p.count * (L + 1) + 1) seeds [] seeds
  (dedupById (List.insertionSort distLE scored)).take k

/-- search from index_manager.rs InMemoryIndex::search: dimension check,
empty-index fast path, k clamped to the live count, single-node fast
path, then the engine search with beam width max(k, base complexity). -/
def search (s : InMemoryIndex) (query : List ℚ) (k : ℕ)
    (search_complexity : ℕ) : Except String (List (ℕ × ℚ)) :=
  if query.length ≠ s.dimension then
    Except.error "query dimension mismatch"
  else
    let n := s.provider.count
    if n = 0 then Except.ok []
    else
      let k := min k n
      if n = 1 then Except.ok [(0, single_vector_distance s query)]
      else if s.graphReady = false then Except.error "index not initialized"
      else
        let baseL := if search_complexity > 0 then search_complexity
                     else s.build_complexity
        let lSearch := max k baseL
        Except.ok (engineSearch s.provider s.metric query k lSearch)

/-- Write an adjacency row for a node id into the id-indexed adjacency
model (DashMap insert; intermediate absent entries stay absent, which
this model renders as empty rows). -/
def setRow (adj : List (List ℕ)) (id : ℕ) (row : List ℕ) : List (List ℕ) :=
  if id < adj.length then adj.set id row
  else adj ++ List.replicate (id - adj.length) [] ++ [row]

/-- set_element and insert_start_point vector-store effect from
provider.rs: grow the flat buffer with zeros to cover the row, overwrite
the row, register an empty adjacency entry, and raise the count. -/
def storeVector (p : Provider) (id : ℕ) (v : List ℚ) : Provider :=
  let dim := p.dimension
  let offset := id * dim
  let grown := if p.vectors.length < offset + dim then
      p.vectors ++ List.replicate (offset + dim - p.vectors.length) 0
    else p.vectors
  { p with
      vectors := grown.take offset ++ v.take dim ++ grown.drop (offset + dim),
      adjacency := setRow p.adjacency id [],
      count := max p.count (id + 1) }

/-- Distance between two stored nodes under the engine-internal metric
convention. -/
def nodePairDist (p : Provider) (metric : Metric) (a b : ℕ) : ℚ :=
  match getVector p a, getVector p b with
  | some va, some vb =>
      match metric with
      | Metric.L2 => l2_distance va vb
      | Metric.InnerProduct => -inner_product va vb
  | _, _ => f32Max

/-- Modelled from the spec: the robust prune of the graph engine (the
diskann crate, not part of this repository; spec section 4.4).  Walks
the candidates in increasing distance order and admits a candidate iff
its distance to the query point, scaled by alpha, stays below its
distance to every already admitted candidate, stopping at R. -/
def robustPrune (p : Provider) (metric : Metric) (alpha : ℚ) (R : ℕ)
    (cands : List (ℕ × ℚ)) : List ℕ :=
  let sorted := List.insertionSort distLE cands
  (sorted.foldl (fun acc c =>
    if acc.length = R then acc
    else if acc.all (fun c2 => c.2 * alpha ≤ nodePairDist p metric c.1 c2) then
      acc ++ [c.1]
    else acc) [])

/-- Modelled from the spec: the graph engine insert protocol for a
non-first node (the diskann crate, not part of this repository; spec
section 4.4): store the vector, greedy-search candidates, robust-prune
them into the adjacency of the new node, then append a back edge to each
selected neighbor and re-prune any neighbor whose degree now exceeds R. -/
def engineInsert (s : InMemoryIndex) (label : ℕ) (v : List ℚ) :
    InMemoryIndex :=
  let R := s.max_degree
  let p1 := storeVector s.provider label v
  let seeds := p1.start_point_ids.map
    (fun id => (id, nodeDist p1 s.metric v id))
  let scored := walk p1 s.metric v s.build_complexity
    (p1.count * (s.build_complexity + 1) + 1) seeds [] seeds
  let cands := (dedupById (List.insertionSort distLE scored)).filter
    (fun c => c.1 ≠ label)
  let nbrs := robustPrune p1 s.metric s.alpha R cands
  let p2 := { p1 with adjacency := setRow p1.adjacency label nbrs }
  let p3 := nbrs.foldl (fun p m =>
    let row := getNeighbors p m ++ [label]
    let row := if R < row.length then
        robustPrune p s.metric s.alpha R
          (row.map (fun x => (x, nodePairDist p s.metric m x)))
      else row
    { p with adjacency := setRow p.adjacency m row }) p2
  { s with provider := p3 }

/-- add from index_manager.rs InMemoryIndex::add: reject a vector of the
wrong dimension before any state change; otherwise take the next label,
then either run the engine insert (initialized index) or store the first
vector as a start point and materialize the engine. -/
def add (s : InMemoryIndex) (vector : List ℚ) :
    InMemoryIndex × Except String ℕ :=
  if vector.length ≠ s.dimension then
    (s, Except.error "dimension mismatch")
  else
    let label := s.next_label
    let s1 := { s with next_label := label + 1 }
    if s1.graphReady then (engineInsert s1 label vector, Except.ok label)
    else
      let p := storeVector s1.provider label vector
      let p := { p with start_point_ids := p.start_point_ids ++ [label] }
      ({ s1 with provider := p, graphReady := true }, Except.ok label)

/-- new_detached from index_manager.rs: a fresh empty index with the
given configuration. -/
def new_detached (dimension : ℕ) (metric : Metric) (max_degree : ℕ)
    (build_complexity : ℕ) (alpha : ℚ) : InMemoryIndex :=
  { dimension := dimension
    metric := metric
    max_degree := max_degree
    build_complexity := build_complexity
    alpha := alpha
    provider :=
      { vectors := []
        adjacency := []
        count := 0
        start_point_ids := []
        max_degree := max_degree
        dimension := dimension
        metric := metric
        quantized := none }
    graphReady := false
    next_label := 0 }

/-- One step of the compact enumeration from index_manager.rs
InMemoryIndex::compact: skip deleted labels, and for a present vector
record (old label, number kept so far) and collect the vector. -/
def compactStep (p : Provider) (deleted : ℕ → Bool)
    (acc : List (List ℚ) × List (ℕ × ℕ)) (old_label : ℕ) :
    List (List ℚ) × List (ℕ × ℕ) :=
  if deleted old_label then acc
  else
    match getVector p old_label with
    | some v => (acc.1 ++ [v], acc.2 ++ [(old_label, acc.1.length)])
    | none => acc

/-- compact from index_manager.rs: enumerate old labels 0..count,
collect kept vectors and the old-to-new label map, then rebuild a fresh
detached index by inserting the kept vectors in order. -/
def compact (s : InMemoryIndex) (deleted : ℕ → Bool) :
    InMemoryIndex × List (ℕ × ℕ) :=
  let res := (List.range s.provider.count).foldl
    (compactStep s.provider deleted) ([], [])
  let fresh := new_detached s.dimension s.metric s.max_degree
    s.build_complexity s.alpha
  (res.1.foldl (fun idx v => (add idx v).1) fresh, res.2)

/-- Old labels paired with consecutive new labels starting at base,
the shape of the label map compact builds. -/
def withNew (base : ℕ) : List ℕ → List (ℕ × ℕ)
  | [] => []
  | o :: os => (o, base) :: withNew (base + 1) os

/-- Sample size derivation from streaming_build.rs (lines 72-77): the
automatic size is the integer square root of N (the f64 sqrt of an
exact u32 truncates to exactly the integer square root) raised to at
least 1000 and clamped to N; a user-provided size is clamped to N. -/
def sample_n_of (n sample_size : ℕ) : ℕ :=
  if sample_size = 0 then min (max (Nat.sqrt n) 1000) n
  else min sample_size n

/-- Result record of streaming_build, from streaming_build.rs
StreamingBuildResult. -/
structure StreamingBuildResult where
  num_vectors : ℕ
  dimension : ℕ
  sample_size : ℕ
deriving DecidableEq, Repr

/-- The header validation and result construction of streaming_build
(streaming_build.rs lines 63-77 and 293-297): reject an empty corpus or
zero dimension, and report N, D and the derived sample size. -/
def streaming_result (n dim sample_size : ℕ) :
    Except String StreamingBuildResult :=
  if n = 0 then Except.error "input file has 0 vectors"
  else if dim = 0 then Except.error "input file has dimension 0"
  else Except.ok ⟨n, dim, sample_n_of n sample_size⟩

/-- Slot policy of the back-edge injection from streaming_build.rs:
append when the row has room, else overwrite slot (g mod deg). -/
def slotInsert (deg g : ℕ) (row : List ℕ) : List ℕ :=
  if row.length < deg then row ++ [g] else row.set (g % deg) g

/-- Back-edge target collection from streaming_build.rs (lines 176-186):
for each streaming vector i with a non-empty adjacency row, the triple
(i, global id sample_n + i, target = row[i mod row length]), computed on
the pre-injection rows. -/
def backEdgeTargets (sample_n : ℕ) (stream_adj : List (List ℕ)) :
    List (ℕ × ℕ × ℕ) :=
  (List.range stream_adj.length).filterMap (fun i =>
    let adj := stream_adj.getD i []
    if adj.isEmpty then none
    else some (i, sample_n + i, adj.getD (i % adj.length) 0))

/-- One back-edge insertion from streaming_build.rs (lines 188-212):
a target below sample_n updates the pilot row with the slot policy; a
streaming target updates its row only when it is a valid stream index
different from i and the global id is not already present. -/
def backEdgeStep (sample_n deg : ℕ)
    (st : List (List ℕ) × List (List ℕ)) (e : ℕ × ℕ × ℕ) :
    List (List ℕ) × List (List ℕ) :=
  let i := e.1
  let g := e.2.1
  let t := e.2.2
  if t < sample_n then
    (st.1.set t (slotInsert deg g (st.1.getD t [])), st.2)
  else
    let j := t - sample_n
    if j < st.2.length ∧ j ≠ i then
      if g ∈ st.2.getD j [] then st
      else (st.1, st.2.set j (slotInsert deg g (st.2.getD j [])))
    else st

/-- The back-edge injection pass of streaming_build.rs (lines 176-212). -/
def injectBackEdges (sample_n deg : ℕ)
    (sample_adj stream_adj : List (List ℕ)) :
    List (List ℕ) × List (List ℕ) :=
  (backEdgeTargets sample_n stream_adj).foldl
    (backEdgeStep sample_n deg) (sample_adj, stream_adj)

/-- The back-edge insertion as the claim words it (for comparison with
the source): the streaming branch updates A_stream[t - sample_n] with
the slot policy unless t = i, with no membership or bounds guard. -/
def backEdgeStepClaim (sample_n deg : ℕ)
    (st : List (List ℕ) × List (List ℕ)) (e : ℕ × ℕ × ℕ) :
    List (List ℕ) × List (List ℕ) :=
  let i := e.1
  let g := e.2.1
  let t := e.2.2
  if t < sample_n then
    (st.1.set t (slotInsert deg g (st.1.getD t [])), st.2)
  else if t = i then st
  else (st.1, st.2.set (t - sample_n) (slotInsert deg g (st.2.getD (t - sample_n) [])))

/-- The back-edge injection pass as the claim describes it. -/
def injectBackEdgesClaim (sample_n deg : ℕ)
    (sample_adj stream_adj : List (List ℕ)) :
    List (List ℕ) × List (List ℕ) :=
  (backEdgeTargets sample_n stream_adj).foldl
    (backEdgeStepClaim sample_n deg) (sample_adj, stream_adj)

/-! ### Byte-level persistence format (file_format.rs, from_bytes) -/

/-- The sentinel padding an adjacency row (u32::MAX). -/
def sentinel : ℕ := 4294967295

/-- Magic bytes "DANN" from file_format.rs. -/
def magicBytes : List ℕ := [68, 65, 78, 78]

/-- A u32 as four little-endian bytes. -/
def le4 (n : ℕ) : List ℕ :=
  [n % 256, n / 256 % 256, n / 65536 % 256, n / 16777216 % 256]

/-- Little-endian u32 from the first four bytes of a list (missing
bytes read as zero; the source always reads in-bounds 4-byte slices). -/
def rd4 : List ℕ → ℕ
  | a :: b :: c :: d :: _ => a + 256 * b + 65536 * c + 16777216 * d
  | [a, b, c] => a + 256 * b + 65536 * c
  | [a, b] => a + 256 * b
  | [a] => a
  | [] => 0

/-- Little-endian u32 read at an offset (u32::from_le_bytes on a
4-byte slice in the source). -/
def readLE4 (data : List ℕ) (off : ℕ) : ℕ := rd4 (data.drop off)

/-- metric_to_u8 from file_format.rs. -/
def metricByte : Metric → ℕ
  | Metric.L2 => 0
  | Metric.InnerProduct => 1

/-- The serializable content of an in-memory index: the provider data
written by write_index, with f32 vector rows carried as their 32-bit
words (serialization is byte-for-byte on them). -/
structure StoredIndex where
  dimension : ℕ
  metric : Metric
  max_degree : ℕ
  build_complexity : ℕ
  count : ℕ
  entry_points : List ℕ
  vectors : List ℕ
  adjacency : List (List ℕ)
deriving DecidableEq, Repr

/-- Fixed-width adjacency row from provider.rs write_adjacency_to: a row
of max_degree sentinels with the first min(len, max_degree) neighbors
copied over. -/
def padRow (deg : ℕ) (row : List ℕ) : List ℕ :=
  row.take deg ++ List.replicate (deg - row.length) sentinel

/-- write_index from file_format.rs: 32-byte header, entry point ids,
the live flat vector words, then fixed-width sentinel-padded adjacency
rows, all little-endian. -/
def write_index (s : StoredIndex) : List ℕ :=
  magicBytes ++ le4 2 ++ le4 s.count ++ le4 s.dimension ++
    le4 s.max_degree ++ le4 s.entry_points.length ++
    [metricByte s.metric, 0, 0, 0] ++ le4 s.build_complexity ++
    (s.entry_points.map le4).flatten ++
    ((s.vectors.take (s.count * s.dimension)).map le4).flatten ++
    ((List.range s.count).map
      (fun i => ((padRow s.max_degree (s.adjacency.getD i [])).map le4).flatten)).flatten

/-- from_bytes from index_manager.rs InMemoryIndex::from_bytes: check
size, magic and version, decode the header fields (any metric byte
other than 1 is read as L2), then decode entry points, vector words,
and adjacency rows, each row cut at the first sentinel. -/
def from_bytes (data : List ℕ) : Option StoredIndex :=
  if data.length < 32 then none
  else if data.take 4 ≠ magicBytes then none
  else if readLE4 data 4 ≠ 2 then none
  else
    let count := readLE4 data 8
    let dim := readLE4 data 12
    let deg := readLE4 data 16
    let neps := readLE4 data 20
    let mByte := data.getD 24 0
    let bc := readLE4 data 28
    let metric := if mByte = 1 then Metric.InnerProduct else Metric.L2
    let eps := (List.range neps).map (fun i => readLE4 data (32 + 4 * i))
    let vecOff := 32 + 4 * neps
    let vecSize := count * dim * 4
    if data.length < vecOff + vecSize then none
    else
      let vecs := (List.range (count * dim)).map
        (fun j => readLE4 data (vecOff + 4 * j))
      let adjOff := vecOff + vecSize
      if data.length < adjOff + count * deg * 4 then none
      else
        let adj := (List.range count).map (fun i =>
          ((List.range deg).map
            (fun j => readLE4 data (adjOff + (i * deg + j) * 4))).takeWhile
            (fun v => v ≠ sentinel))
        some ⟨dim, metric, deg, bc, count, eps, vecs, adj⟩

/-- Decidable equality for Except results, used to evaluate concrete
search outcomes. -/
def exceptDecEq {e a : Type} [DecidableEq e] [DecidableEq a] :
    DecidableEq (Except e a) := fun x y =>
  match x, y with
  | Except.ok u, Except.ok v =>
      if h : u = v then isTrue (by rw [h])
      else isFalse (by intro hc; cases hc; exact h rfl)
  | Except.error u, Except.error v =>
      if h : u = v then isTrue (by rw [h])
      else isFalse (by intro hc; cases hc; exact h rfl)
  | Except.ok _, Except.error _ => isFalse (by intro hc; cases hc)
  | Except.error _, Except.ok _ => isFalse (by intro hc; cases hc)

instance {e a : Type} [DecidableEq e] [DecidableEq a] :
    DecidableEq (Except e a) := exceptDecEq

/-! ### Theorems -/

/-- C9: quantize_sq8 is one-shot and idempotent: a second call recomputes
the same quantized data and parameters from the unchanged f32 store, and
neither call writes the f32 store. -/
theorem quantize_sq8_idempotent (p : Provider) :
    quantize_sq8 (quantize_sq8 p) = quantize_sq8 p ∧
    (quantize_sq8 p).vectors = p.vectors ∧
    (quantize_sq8 (quantize_sq8 p)).vectors = p.vectors := by
  by_cases h : p.count = 0 ∨ p.dimension = 0
  · simp [quantize_sq8, h]
  · simp [quantize_sq8, h]

/-- C8: add on a vector of the wrong dimension fails before any state
change: the returned state keeps the vector store, the adjacency store
and the next_label counter exactly as before, and the result is an
error. -/
theorem add_wrong_dimension (s : InMemoryIndex) (v : List ℚ)
    (h : v.length ≠ s.dimension) :
    (add s v).1 = s ∧
    (add s v).1.provider.vectors = s.provider.vectors ∧
    (add s v).1.provider.adjacency = s.provider.adjacency ∧
    (add s v).1.next_label = s.next_label ∧
    (add s v).2 = Except.error "dimension mismatch" := by
  simp [add, h]

/-- Witness for add_wrong_dimension at a concrete index and vector. -/
theorem add_wrong_dimension_witness :
    (add (new_detached 2 Metric.L2 16 50 (6/5)) [1]).1 =
      new_detached 2 Metric.L2 16 50 (6/5) ∧
    (add (new_detached 2 Metric.L2 16 50 (6/5)) [1]).2 =
      Except.error "dimension mismatch" := by
  have h := add_wrong_dimension (new_detached 2 Metric.L2 16 50 (6/5)) [1]
    (by decide)
  exact ⟨h.1, h.2.2.2.2⟩

/-- C4 counterexample: with N = 10 vectors and a user sample size of
5000 the code derives sample_n = 10, not the user value 5000 that the
claim states. -/
theorem sample_n_counterexample :
    sample_n_of 10 5000 = 10 ∧ (10 : ℕ) ≠ 5000 := by decide

/-- C4 (amended): the sample size is min(user value, N) when the user
value is positive and clamp(sqrt N, 1000, N) when it is 0, and the
result fields are num_vectors = N, dimension = D, sample_size =
sample_n. -/
theorem streaming_sample_size (n d ss : ℕ) (hn : n ≠ 0) (hd : d ≠ 0) :
    streaming_result n d ss = Except.ok ⟨n, d, sample_n_of n ss⟩ ∧
    (0 < ss → sample_n_of n ss = min ss n) ∧
    (ss = 0 → sample_n_of n ss = min (max (Nat.sqrt n) 1000) n) := by
  refine ⟨by simp [streaming_result, hn, hd], fun hss => ?_, fun hss => ?_⟩
  · have : ss ≠ 0 := Nat.pos_iff_ne_zero.mp hss
    simp [sample_n_of, this]
  · simp [sample_n_of, hss]

/-- Witness for streaming_sample_size: N = 5000, D = 16, user sample
size 600 resolves to 600. -/
theorem streaming_sample_size_witness :
    streaming_result 5000 16 600 = Except.ok ⟨5000, 16, 600⟩ := by
  have h := streaming_sample_size 5000 16 600 (by decide) (by decide)
  rw [h.1, h.2.1 (by decide), show (600 : ℕ) ⊓ 5000 = 600 from by decide]

/-- C5 counterexample: with sample_n = 1, R = 2, pilot rows [[]] and
stream rows [[2], [1]], the code leaves both arrays unchanged (the
membership guard fires for both back edges), while the claimed policy
without the membership guard and with the t = i skip produces
[[2], [1, 1]]. -/
theorem back_edge_counterexample :
    injectBackEdges 1 2 [[]] [[2], [1]] = ([[]], [[2], [1]]) ∧
    injectBackEdgesClaim 1 2 [[]] [[2], [1]] = ([[]], [[2], [1, 1]]) ∧
    injectBackEdges 1 2 [[]] [[2], [1]] ≠
      injectBackEdgesClaim 1 2 [[]] [[2], [1]] := by decide

/-- C5 (amended): for each streaming vector i with a non-empty row,
exactly one target t = row[i mod len] is chosen with global id
g = sample_n + i; a pilot target (t < sample_n) is updated with the slot
policy (append if room, else overwrite slot g mod R); a streaming target
is updated with the same policy only when t - sample_n is a valid stream
index, differs from i, and g is not already present in that row; any
other case leaves the arrays unchanged. -/
theorem back_edge_injection (sample_n deg : ℕ) (sa sta : List (List ℕ))
    (i g t : ℕ) :
    (t < sample_n →
      backEdgeStep sample_n deg (sa, sta) (i, g, t) =
        (sa.set t (slotInsert deg g (sa.getD t [])), sta)) ∧
    (sample_n ≤ t → t - sample_n < sta.length → t - sample_n ≠ i →
        g ∉ sta.getD (t - sample_n) [] →
      backEdgeStep sample_n deg (sa, sta) (i, g, t) =
        (sa, sta.set (t - sample_n)
          (slotInsert deg g (sta.getD (t - sample_n) [])))) ∧
    (sample_n ≤ t →
        (¬ t - sample_n < sta.length ∨ t - sample_n = i ∨
          g ∈ sta.getD (t - sample_n) []) →
      backEdgeStep sample_n deg (sa, sta) (i, g, t) = (sa, sta)) ∧
    (∀ row : List ℕ, row.length < deg → slotInsert deg g row = row ++ [g]) ∧
    (∀ row : List ℕ, ¬ row.length < deg →
      slotInsert deg g row = row.set (g % deg) g) ∧
    (injectBackEdges sample_n deg sa sta =
      (backEdgeTargets sample_n sta).foldl (backEdgeStep sample_n deg)
        (sa, sta)) ∧
    (∀ i2, i2 < sta.length → sta.getD i2 [] ≠ [] →
      (i2, sample_n + i2,
        (sta.getD i2 []).getD (i2 % (sta.getD i2 []).length) 0) ∈
        backEdgeTargets sample_n sta) := by
  refine ⟨fun ht => ?_, fun ht hj hne hmem => ?_, fun ht hskip => ?_,
    fun row hr => ?_, fun row hr => ?_, rfl, fun i2 hi2 hne => ?_⟩
  · simp only [backEdgeStep]
    rw [if_pos ht]
  · have ht' : ¬ t < sample_n := by omega
    simp only [backEdgeStep]
    rw [if_neg ht', if_pos ⟨hj, hne⟩, if_neg hmem]
  · have ht' : ¬ t < sample_n := by omega
    simp only [backEdgeStep]
    rw [if_neg ht']
    rcases hskip with h | h | h
    · rw [if_neg (by intro hc; exact h hc.1)]
    · by_cases hj : t - sample_n < sta.length
      · rw [if_neg (by intro hc; exact hc.2 h)]
      · rw [if_neg (by intro hc; exact hj hc.1)]
    · by_cases hj : t - sample_n < sta.length
      · by_cases hne2 : t - sample_n = i
        · rw [if_neg (by intro hc; exact hc.2 hne2)]
        · rw [if_pos ⟨hj, hne2⟩, if_pos h]
      · rw [if_neg (by intro hc; exact hj hc.1)]
  · simp [slotInsert, hr]
  · simp [slotInsert, hr]
  · simp only [backEdgeTargets, List.mem_filterMap, List.mem_range]
    refine ⟨i2, hi2, ?_⟩
    rw [if_neg (by simpa [List.isEmpty_iff, List.getD] using hne)]

/-- Witness for back_edge_injection: a streaming back edge with all
guards satisfied appends the global id. -/
theorem back_edge_injection_witness :
    backEdgeStep 1 2 ([[]], [[2], [1]]) (0, 7, 2) = ([[]], [[2], [1, 7]]) := by
  have h := (back_edge_injection 1 2 [[]] [[2], [1]] 0 7 2).2.1
    (by decide) (by decide) (by decide) (by decide)
  rw [h]; decide

/-- C1 counterexample: a single-node IP index storing [2, 0], queried
with [1, 0], surfaces the distance -2.0 (the internal negated inner
product), not the true inner product 2.0 the claim states. -/
theorem ip_sign_counterexample :
    search ⟨2, Metric.InnerProduct, 16, 50, 6/5,
        ⟨[2, 0], [[]], 1, [0], 16, 2, Metric.InnerProduct, none⟩, true, 1⟩
      [1, 0] 3 0 = Except.ok [(0, -2)] ∧
    inner_product [1, 0] [2, 0] = 2 ∧ ((-2 : ℚ)) ≠ 2 := by
  refine ⟨?_, by simp [inner_product], by norm_num⟩
  simp [search, single_vector_distance, getVector, inner_product]

/-- C1 (amended): no negation back to true inner products happens
anywhere on the search path; for metric IP the surfaced distance of the
single-node fast path is the negated inner product of query and stored
vector, and the engine-internal node distance convention is the negated
inner product as well. -/
theorem ip_sign_surfaced (s : InMemoryIndex) (q v : List ℚ) (k sc : ℕ)
    (hm : s.metric = Metric.InnerProduct) (hc : s.provider.count = 1)
    (hv : getVector s.provider 0 = some v) (hq : q.length = s.dimension) :
    search s q k sc = Except.ok [(0, -inner_product q v)] ∧
    (∀ p : Provider, ∀ id : ℕ, ∀ w : List ℚ, getVector p id = some w →
      nodeDist p Metric.InnerProduct q id = -inner_product q w) := by
  constructor
  · simp [search, hq, hc, single_vector_distance, hv, hm]
  · intro p id w hw
    simp [nodeDist, hw]

/-- Witness for ip_sign_surfaced at the concrete single-node IP index. -/
theorem ip_sign_surfaced_witness :
    search ⟨2, Metric.InnerProduct, 16, 50, 6/5,
        ⟨[2, 0], [[]], 1, [0], 16, 2, Metric.InnerProduct, none⟩, true, 1⟩
      [1, 0] 3 0 = Except.ok [(0, -inner_product [1, 0] [2, 0])] := by
  exact (ip_sign_surfaced _ [1, 0] [2, 0] 3 0 rfl rfl
    (by simp [getVector]) (by simp)).1

/-! ### Helper lemmas for the quantization fold -/

lemma foldl_min_le_init (l : List ℚ) (init : ℚ) : l.foldl min init ≤ init := by
  induction l generalizing init with
  | nil => exact le_refl _
  | cons a as ih => exact le_trans (ih (min init a)) (min_le_left _ _)

lemma init_le_foldl_max (l : List ℚ) (init : ℚ) : init ≤ l.foldl max init := by
  induction l generalizing init with
  | nil => exact le_refl _
  | cons a as ih => exact le_trans (le_max_left _ _) (ih (max init a))

lemma foldl_min_le (l : List ℚ) (init x : ℚ) (hx : x ∈ l) :
    l.foldl min init ≤ x := by
  induction l generalizing init with
  | nil => cases hx
  | cons a as ih =>
      rcases List.mem_cons.mp hx with h | h
      · subst h
        exact le_trans (foldl_min_le_init as (min init x)) (min_le_right _ _)
      · exact ih (min init a) h

lemma le_foldl_max (l : List ℚ) (init x : ℚ) (hx : x ∈ l) :
    x ≤ l.foldl max init := by
  induction l generalizing init with
  | nil => cases hx
  | cons a as ih =>
      rcases List.mem_cons.mp hx with h | h
      · subst h
        exact le_trans (le_max_right _ _) (init_le_foldl_max as (max init x))
      · exact ih (max init a) h

lemma foldl_min_mem (l : List ℚ) (init : ℚ) :
    l.foldl min init = init ∨ l.foldl min init ∈ l := by
  induction l generalizing init with
  | nil => exact Or.inl rfl
  | cons a as ih =>
      rcases ih (min init a) with h | h
      · rcases min_choice init a with hm | hm
        · exact Or.inl (by rw [List.foldl_cons, h, hm])
        · exact Or.inr (by rw [List.foldl_cons, h, hm]; exact List.mem_cons_self _ _)
      · exact Or.inr (List.mem_cons_of_mem _ h)

lemma foldl_max_mem (l : List ℚ) (init : ℚ) :
    l.foldl max init = init ∨ l.foldl max init ∈ l := by
  induction l generalizing init with
  | nil => exact Or.inl rfl
  | cons a as ih =>
      rcases ih (max init a) with h | h
      · rcases max_choice init a with hm | hm
        · exact Or.inl (by rw [List.foldl_cons, h, hm])
        · exact Or.inr (by rw [List.foldl_cons, h, hm]; exact List.mem_cons_self _ _)
      · exact Or.inr (List.mem_cons_of_mem _ h)

lemma foldl_min_attained (l : List ℚ) (init : ℚ) (hl : l ≠ [])
    (hb : ∀ x ∈ l, x ≤ init) : l.foldl min init ∈ l := by
  rcases foldl_min_mem l init with h | h
  · obtain ⟨x, hx⟩ := List.exists_mem_of_ne_nil l hl
    have h1 := foldl_min_le l init x hx
    have h2 := hb x hx
    have : x = l.foldl min init := le_antisymm (by rw [h]; exact h2) h1
    rw [← this]; exact hx
  · exact h

lemma foldl_max_attained (l : List ℚ) (init : ℚ) (hl : l ≠ [])
    (hb : ∀ x ∈ l, init ≤ x) : l.foldl max init ∈ l := by
  rcases foldl_max_mem l init with h | h
  · obtain ⟨x, hx⟩ := List.exists_mem_of_ne_nil l hl
    have h1 := le_foldl_max l init x hx
    have h2 := hb x hx
    have : x = l.foldl max init := le_antisymm h1 (by rw [h]; exact h2)
    rw [← this]; exact hx
  · exact h

/-- The byte written by quantize_sq8 equals the round-clamp formula of
the specification whenever the value lies between the per-dimension
extrema, because the normalized value then lies in [0, 1] and the two
clamp placements coincide. -/
lemma sq8Byte_eq_spec (vecs : List ℚ) (count dim i d : ℕ)
    (hlb : sq8Mins vecs count dim d ≤ vecs.getD (i * dim + d) 0)
    (hub : vecs.getD (i * dim + d) 0 ≤ sq8Maxs vecs count dim d) :
    sq8Byte vecs count dim i d =
      (roundQ (clampQ ((vecs.getD (i * dim + d) 0 -
        sq8Mins vecs count dim d) / sq8Scale vecs count dim d)
        0 1 * 255)).toNat := by
  set v := vecs.getD (i * dim + d) 0 with hv
  set mn := sq8Mins vecs count dim d with hmn
  set mx := sq8Maxs vecs count dim d with hmx
  set sc := sq8Scale vecs count dim d with hsc
  have hsc_cases : (0 < mx - mn ∧ sc = mx - mn) ∨ (mx - mn ≤ 0 ∧ sc = 1) := by
    rw [hsc]
    unfold sq8Scale
    by_cases h : sq8Maxs vecs count dim d - sq8Mins vecs count dim d > 0
    · exact Or.inl ⟨h, by rw [← hmx, ← hmn] at h ⊢; simp [h]⟩
    · refine Or.inr ⟨by rw [← hmx, ← hmn] at h; linarith, ?_⟩
      rw [← hmx, ← hmn] at h ⊢; simp [h]
  have hsc_pos : 0 < sc := by
    rcases hsc_cases with ⟨h1, h2⟩ | ⟨h1, h2⟩
    · rw [h2]; exact h1
    · rw [h2]; norm_num
  have hx0 : 0 ≤ (v - mn) / sc := div_nonneg (by linarith) hsc_pos.le
  have hx1 : (v - mn) / sc ≤ 1 := by
    rcases hsc_cases with ⟨h1, h2⟩ | ⟨h1, h2⟩
    · rw [h2]
      exact (div_le_one (by rw [← h2]; exact hsc_pos)).mpr (by linarith)
    · have hv0 : v - mn = 0 := by linarith
      rw [hv0]
      simp
  have hclamp : clampQ ((v - mn) / sc) 0 1 = (v - mn) / sc := by
    unfold clampQ
    rw [max_eq_left hx0, min_eq_left hx1]
  have harg0 : (0 : ℚ) ≤ (v - mn) / sc * 255 := by positivity
  have harg1 : (v - mn) / sc * 255 ≤ 255 := by nlinarith
  have hr0 : 0 ≤ roundQ ((v - mn) / sc * 255) := by
    unfold roundQ
    exact Int.le_floor.mpr (by push_cast; linarith)
  have hr1 : roundQ ((v - mn) / sc * 255) ≤ 255 := by
    unfold roundQ
    have : ((v - mn) / sc * 255 + 1 / 2 : ℚ) < 256 := by linarith
    have hlt := Int.floor_lt.mpr (by push_cast; linarith : ((v - mn) / sc * 255 + 1 / 2 : ℚ) < (256 : ℤ))
    omega
  unfold sq8Byte
  rw [hclamp, ← hv, ← hmn, ← hsc]
  simp only []
  rw [min_eq_left hr1, max_eq_right hr0]

lemma getD_map_range {α : Type} (f : ℕ → α) (n d : ℕ) (hd : d < n)
    (dflt : α) : ((List.range n).map f).getD d dflt = f d := by
  rw [List.getD_eq_getElem _ _ (by simpa using hd)]
  simp

lemma getD_bounds (l : List ℚ) (hb : ∀ x ∈ l, -f32Max ≤ x ∧ x ≤ f32Max)
    (j : ℕ) : -f32Max ≤ l.getD j 0 ∧ l.getD j 0 ≤ f32Max := by
  by_cases h : j < l.length
  · rw [List.getD_eq_getElem l 0 h]
    exact hb _ (l.getElem_mem h)
  · rw [List.getD_eq_default l 0 (by omega)]
    constructor <;> norm_num [f32Max]

/-- C2 counterexample: for stored vectors [0] and [0.5] (D = 1) the
range is 0.5 and the code stores scale = 0.5, not max(range, 1.0) = 1.0
as the claim states. -/
theorem quantize_scale_counterexample :
    ((quantize_sq8 ⟨[0, 1/2], [[], []], 2, [0], 16, 1, Metric.L2,
        none⟩).quantized.map (fun q => q.params.scale)) = some [1/2] ∧
    sq8Maxs [0, 1/2] 2 1 0 - sq8Mins [0, 1/2] 2 1 0 = 1/2 ∧
    (1/2 : ℚ) ≠ max (1/2) 1 := by
  have hmin : sq8Mins [0, 1/2] 2 1 0 = 0 := by
    simp [sq8Mins, List.range_succ, min_def, f32Max]
    norm_num
  have hmax : sq8Maxs [0, 1/2] 2 1 0 = 1/2 := by
    simp [sq8Maxs, List.range_succ, max_def, f32Min, f32Max]
    norm_num
  have hscale : sq8Scale [0, 1/2] 2 1 0 = 1/2 := by
    unfold sq8Scale
    rw [hmin, hmax]
    norm_num
  refine ⟨?_, by rw [hmin, hmax]; norm_num,
    by rw [max_eq_right (by norm_num : (1:ℚ)/2 ≤ 1)]; norm_num⟩
  simp only [quantize_sq8]
  rw [if_neg (by norm_num)]
  simpa [List.range_succ] using hscale

/-- C2 (amended): for every non-empty index with positive dimension and
f32-bounded values, quantize() stores, per dimension d, the true minimum
as min_d, and scale_d = range_d when range_d is positive and 1.0
otherwise (range_d = max_d - min_d over the live prefix, NOT
max(range_d, 1.0)); it encodes each live value v as
round(clamp((v - min_d)/scale_d, 0, 1) * 255) into the parallel u8
buffer and retains the f32 store. -/
theorem quantize_sq8_amended (p : Provider) (hc : p.count ≠ 0)
    (hd : p.dimension ≠ 0)
    (hb : ∀ x ∈ p.vectors, -f32Max ≤ x ∧ x ≤ f32Max) :
    ∃ q : QuantizedStorage,
      quantize_sq8 p = { p with quantized := some q } ∧
      q.data.length = p.count * p.dimension ∧
      q.params.min.length = p.dimension ∧
      q.params.scale.length = p.dimension ∧
      ∀ d, d < p.dimension →
        (∀ i, i < p.count →
          q.params.min.getD d 0 ≤ p.vectors.getD (i * p.dimension + d) 0 ∧
          p.vectors.getD (i * p.dimension + d) 0 ≤
            sq8Maxs p.vectors p.count p.dimension d) ∧
        (∃ i, i < p.count ∧
          q.params.min.getD d 0 = p.vectors.getD (i * p.dimension + d) 0) ∧
        (∃ i, i < p.count ∧
          sq8Maxs p.vectors p.count p.dimension d =
            p.vectors.getD (i * p.dimension + d) 0) ∧
        (0 < sq8Maxs p.vectors p.count p.dimension d - q.params.min.getD d 0 →
          q.params.scale.getD d 0 =
            sq8Maxs p.vectors p.count p.dimension d - q.params.min.getD d 0) ∧
        (sq8Maxs p.vectors p.count p.dimension d - q.params.min.getD d 0 ≤ 0 →
          q.params.scale.getD d 0 = 1) ∧
        (∀ i, i < p.count →
          q.data.getD (i * p.dimension + d) 0 =
            (roundQ (clampQ ((p.vectors.getD (i * p.dimension + d) 0 -
              q.params.min.getD d 0) / q.params.scale.getD d 0) 0 1 *
              255)).toNat) := by
  have hguard : ¬ (p.count = 0 ∨ p.dimension = 0) := by tauto
  have hdim0 : 0 < p.dimension := Nat.pos_of_ne_zero hd
  refine ⟨⟨(List.range (p.count * p.dimension)).map
      (fun j => sq8Byte p.vectors p.count p.dimension (j / p.dimension)
        (j % p.dimension)),
      ⟨(List.range p.dimension).map (sq8Mins p.vectors p.count p.dimension),
       (List.range p.dimension).map (sq8Scale p.vectors p.count p.dimension)⟩⟩,
    ?_, by simp, by simp, by simp, ?_⟩
  · simp only [quantize_sq8]
    rw [if_neg hguard]
  · intro d hdd
    have hmind : ((List.range p.dimension).map
        (sq8Mins p.vectors p.count p.dimension)).getD d 0 =
        sq8Mins p.vectors p.count p.dimension d := getD_map_range _ _ _ hdd _
    have hscaled : ((List.range p.dimension).map
        (sq8Scale p.vectors p.count p.dimension)).getD d 0 =
        sq8Scale p.vectors p.count p.dimension d := getD_map_range _ _ _ hdd _
    have hvmem : ∀ i, i < p.count →
        p.vectors.getD (i * p.dimension + d) 0 ∈
          (List.range p.count).map
            (fun i => p.vectors.getD (i * p.dimension + d) 0) :=
      fun i hi => List.mem_map.mpr ⟨i, List.mem_range.mpr hi, rfl⟩
    have hlb : ∀ i, i < p.count →
        sq8Mins p.vectors p.count p.dimension d ≤
          p.vectors.getD (i * p.dimension + d) 0 :=
      fun i hi => foldl_min_le _ _ _ (hvmem i hi)
    have hub : ∀ i, i < p.count →
        p.vectors.getD (i * p.dimension + d) 0 ≤
          sq8Maxs p.vectors p.count p.dimension d :=
      fun i hi => le_foldl_max _ _ _ (hvmem i hi)
    have hne : (List.range p.count).map
        (fun i => p.vectors.getD (i * p.dimension + d) 0) ≠ [] := by
      simp [hc]
    have hball : ∀ x ∈ (List.range p.count).map
        (fun i => p.vectors.getD (i * p.dimension + d) 0), x ≤ f32Max := by
      intro x hx
      obtain ⟨i, _, rfl⟩ := List.mem_map.mp hx
      exact (getD_bounds p.vectors hb _).2
    have hball' : ∀ x ∈ (List.range p.count).map
        (fun i => p.vectors.getD (i * p.dimension + d) 0), f32Min ≤ x := by
      intro x hx
      obtain ⟨i, _, rfl⟩ := List.mem_map.mp hx
      exact (getD_bounds p.vectors hb _).1
    refine ⟨fun i hi => ⟨by rw [hmind]; exact hlb i hi, hub i hi⟩, ?_, ?_,
      ?_, ?_, ?_⟩
    · obtain ⟨i, hi, hv⟩ := List.mem_map.mp
        (foldl_min_attained _ _ hne hball)
      refine ⟨i, List.mem_range.mp hi, ?_⟩
      rw [hmind]
      unfold sq8Mins
      exact hv.symm
    · obtain ⟨i, hi, hv⟩ := List.mem_map.mp
        (foldl_max_attained _ _ hne hball')
      refine ⟨i, List.mem_range.mp hi, ?_⟩
      unfold sq8Maxs
      exact hv.symm
    · intro hpos
      rw [hmind] at hpos
      rw [hscaled, hmind]
      unfold sq8Scale
      simp only []
      rw [if_pos hpos]
    · intro hnonpos
      rw [hmind] at hnonpos
      rw [hscaled]
      unfold sq8Scale
      simp only []
      rw [if_neg (by linarith)]
    · intro i hi
      have hidx : i * p.dimension + d < p.count * p.dimension := by
        have h1 : i * p.dimension + d < (i + 1) * p.dimension := by
          rw [Nat.succ_mul]
          exact Nat.add_lt_add_left hdd _
        have h2 : (i + 1) * p.dimension ≤ p.count * p.dimension :=
          Nat.mul_le_mul_right _ (Nat.succ_le_of_lt hi)
        exact Nat.lt_of_lt_of_le h1 h2
      have hdiv : (i * p.dimension + d) / p.dimension = i := by
        rw [Nat.mul_comm i p.dimension, Nat.mul_add_div hdim0,
          Nat.div_eq_of_lt hdd]
        omega
      have hmod : (i * p.dimension + d) % p.dimension = d := by
        rw [Nat.mul_comm i p.dimension, Nat.mul_add_mod]
        exact Nat.mod_eq_of_lt hdd
      rw [getD_map_range _ _ _ hidx, hdiv, hmod, hmind, hscaled]
      exact sq8Byte_eq_spec p.vectors p.count p.dimension i d
        (hlb i hi) (hub i hi)

/-- Witness for quantize_sq8_amended at the two-vector provider. -/
theorem quantize_sq8_amended_witness :
    ∃ q : QuantizedStorage,
      quantize_sq8 ⟨[0, 1/2], [[], []], 2, [0], 16, 1, Metric.L2, none⟩ =
        { vectors := [0, 1/2], adjacency := [[], []], count := 2,
          start_point_ids := [0], max_degree := 16, dimension := 1,
          metric := Metric.L2, quantized := some q } ∧
      q.data.length = 2 := by
  obtain ⟨q, hq, hlen, -, -, -⟩ := quantize_sq8_amended
    ⟨[0, 1/2], [[], []], 2, [0], 16, 1, Metric.L2, none⟩
    (by norm_num) (by norm_num)
    (by intro x hx; fin_cases hx <;> constructor <;> norm_num [f32Max])
  exact ⟨q, hq, by simpa using hlen⟩

/-! ### Helper lemmas for the search result pipeline -/

lemma dedupById_sublist : ∀ l : List (ℕ × ℚ), List.Sublist (dedupById l) l
  | [] => by rw [dedupById]
  | x :: xs => by
      rw [dedupById]
      exact List.Sublist.cons₂ x
        ((dedupById_sublist _).trans (List.filter_sublist xs))
termination_by l => l.length
decreasing_by
  simp only [List.length_cons]
  exact Nat.lt_succ_of_le (List.length_filter_le _ _)

lemma dedupById_nodup_keys : ∀ l : List (ℕ × ℚ),
    ((dedupById l).map Prod.fst).Nodup
  | [] => by rw [dedupById]; simp
  | x :: xs => by
      rw [dedupById]
      simp only [List.map_cons, List.nodup_cons]
      refine ⟨?_, dedupById_nodup_keys _⟩
      intro hmem
      obtain ⟨y, hy, hyx⟩ := List.mem_map.mp hmem
      have hy' := (dedupById_sublist _).subset hy
      have hdec := (List.mem_filter.mp hy').2
      simp only [decide_eq_true_eq] at hdec
      exact hdec hyx
termination_by l => l.length
decreasing_by
  simp only [List.length_cons]
  exact Nat.lt_succ_of_le (List.length_filter_le _ _)

/-- C7 counterexample: on a single-node index a search with k = 0 still
returns one result, exceeding the claimed min(k, live_count) = 0 bound of
InMemoryIndex::search. -/
theorem search_k0_counterexample :
    search ⟨1, Metric.L2, 16, 50, 6/5,
        ⟨[0], [[]], 1, [0], 16, 1, Metric.L2, none⟩, true, 1⟩
      [0] 0 0 = Except.ok [(0, 0)] ∧
    ¬ ([((0:ℕ), (0:ℚ))].length ≤ min 0 1) := by
  constructor
  · simp [search, single_vector_distance, getVector, l2_distance]
  · norm_num

/-- C7 (amended): for every index state and query of matching dimension,
a successful search returns results with monotonically non-decreasing
distances and pairwise distinct labels; an empty index yields the empty
list; a single-node index yields exactly node 0 with its direct
distance regardless of k (so k = 0 still returns one result there, and
the FFI layer truncates to k); in every other case, and whenever k is
at least 1, at most min(k, live_count) results are returned. -/
theorem search_results (s : InMemoryIndex) (q : List ℚ) (k sc : ℕ)
    (res : List (ℕ × ℚ)) (hq : q.length = s.dimension)
    (hres : search s q k sc = Except.ok res) :
    List.Sorted distLE res ∧
    (res.map Prod.fst).Nodup ∧
    (s.provider.count = 0 → res = []) ∧
    (s.provider.count = 1 → res = [(0, single_vector_distance s q)]) ∧
    (s.provider.count ≠ 1 → res.length ≤ min k s.provider.count) ∧
    (1 ≤ k → res.length ≤ min k s.provider.count) := by
  simp only [search] at hres
  rw [if_neg (by simp [hq])] at hres
  by_cases h0 : s.provider.count = 0
  · rw [if_pos h0] at hres
    have hr : res = [] := by
      cases hres
      rfl
    subst hr
    refine ⟨List.sorted_nil, by simp, fun _ => rfl, fun h1 => ?_,
      fun _ => by simp, fun _ => by simp⟩
    exact absurd (h0.symm.trans h1) (by norm_num)
  · rw [if_neg h0] at hres
    by_cases h1 : s.provider.count = 1
    · rw [if_pos h1] at hres
      have hr : res = [(0, single_vector_distance s q)] := by
        cases hres
        rfl
      subst hr
      refine ⟨List.sorted_singleton _, by simp, fun hc => absurd hc h0,
        fun _ => rfl, fun hc => absurd h1 hc, fun hk => ?_⟩
      rw [h1]
      simpa using hk
    · rw [if_neg h1] at hres
      by_cases hg : s.graphReady = false
      · rw [if_pos hg] at hres
        cases hres
      · rw [if_neg hg] at hres
        have hr : res = engineSearch s.provider s.metric q
            (min k s.provider.count)
            (max (min k s.provider.count)
              (if sc > 0 then sc else s.build_complexity)) := by
          cases hres
          rfl
        have hsorted : List.Sorted distLE res := by
          rw [hr]
          simp only [engineSearch]
          exact List.Pairwise.sublist
            ((List.take_sublist _ _).trans (dedupById_sublist _))
            (List.sorted_insertionSort distLE _)
        have hnodup : (res.map Prod.fst).Nodup := by
          rw [hr]
          simp only [engineSearch]
          rw [List.map_take]
          exact List.Nodup.sublist (List.take_sublist _ _)
            (dedupById_nodup_keys _)
        have hlen : res.length ≤ min k s.provider.count := by
          rw [hr]
          simp only [engineSearch]
          simp only [List.length_take]
          exact min_le_left _ _
        exact ⟨hsorted, hnodup, fun hc => absurd hc h0,
          fun hc => absurd hc h1, fun _ => hlen, fun _ => hlen⟩

/-- Witness for search_results at a concrete single-node IP index. -/
theorem search_results_witness :
    List.Sorted distLE [((0:ℕ), (-2:ℚ))] ∧
    [((0:ℕ), (-2:ℚ))].length ≤ min 3 1 := by
  have h := search_results
    ⟨2, Metric.InnerProduct, 16, 50, 6/5,
      ⟨[2, 0], [[]], 1, [0], 16, 2, Metric.InnerProduct, none⟩, true, 1⟩
    [1, 0] 3 0 [(0, -2)] (by simp)
    (by simp [search, single_vector_distance, getVector, inner_product])
  exact ⟨h.1, h.2.2.2.2.2 (by norm_num)⟩

/-! ### Helper lemmas for the compaction label map -/

lemma withNew_length (b : ℕ) (l : List ℕ) : (withNew b l).length = l.length := by
  induction l generalizing b with
  | nil => rfl
  | cons o os ih => simp [withNew, ih]

lemma withNew_map_fst (b : ℕ) (l : List ℕ) :
    (withNew b l).map Prod.fst = l := by
  induction l generalizing b with
  | nil => rfl
  | cons o os ih => simp [withNew, ih]

lemma withNew_map_snd (b : ℕ) (l : List ℕ) :
    (withNew b l).map Prod.snd = List.range' b l.length := by
  induction l generalizing b with
  | nil => rfl
  | cons o os ih => simp [withNew, ih, List.range'_succ]

lemma compact_foldl (p : Provider) (deleted : ℕ → Bool) (l : List ℕ) :
    ∀ (vs : List (List ℚ)) (lm : List (ℕ × ℕ)),
      l.foldl (compactStep p deleted) (vs, lm) =
        (vs ++ (l.filter (fun o => !deleted o &&
            (getVector p o).isSome)).map (fun o => (getVector p o).getD []),
         lm ++ withNew vs.length (l.filter (fun o => !deleted o &&
            (getVector p o).isSome))) := by
  induction l with
  | nil => intro vs lm; simp [withNew]
  | cons o os ih =>
      intro vs lm
      rw [List.foldl_cons]
      by_cases hdel : deleted o
      · have hstep : compactStep p deleted (vs, lm) o = (vs, lm) := by
          simp [compactStep, hdel]
        rw [hstep, ih]
        simp [List.filter_cons, hdel]
      · cases hv : getVector p o with
        | none =>
            have hstep : compactStep p deleted (vs, lm) o = (vs, lm) := by
              simp [compactStep, hdel, hv]
            rw [hstep, ih]
            simp [List.filter_cons, hdel, hv]
        | some v =>
            have hstep : compactStep p deleted (vs, lm) o =
                (vs ++ [v], lm ++ [(o, vs.length)]) := by
              simp [compactStep, hdel, hv]
            rw [hstep, ih]
            simp [List.filter_cons, hdel, hv, withNew]

/-- Splitting the kept count: kept plus deleted-but-present equals
present. -/
lemma filter_split_length (l : List ℕ) (del pres : ℕ → Bool) :
    (l.filter (fun o => !del o && pres o)).length +
      (l.filter (fun o => del o && pres o)).length =
      (l.filter pres).length := by
  induction l with
  | nil => rfl
  | cons a as ih =>
      by_cases hd : del a <;> by_cases hp : pres a <;>
        simp [List.filter_cons, hd, hp] <;> omega

set_option maxRecDepth 100000

/-- C6: compact enumerates old labels in increasing order, keeps exactly
the non-deleted present labels, and assigns consecutive new labels: the
label map is the kept labels paired with 0, 1, 2, ...; its length is the
present count minus the deleted-present count; old labels are strictly
increasing and new labels are exactly range; and on the concrete
100-label index with T = {5, 20, 77} the map has 97 entries with
(0, 0) and (6, 5) among them. -/
theorem compact_label_map (s : InMemoryIndex) (deleted : ℕ → Bool) :
    (compact s deleted).2 =
      withNew 0 ((List.range s.provider.count).filter
        (fun o => !deleted o && (getVector s.provider o).isSome)) ∧
    List.Pairwise (· < ·) ((compact s deleted).2.map Prod.fst) ∧
    (compact s deleted).2.map Prod.snd =
      List.range (compact s deleted).2.length ∧
    (compact s deleted).2.length +
      ((List.range s.provider.count).filter
        (fun o => deleted o && (getVector s.provider o).isSome)).length =
      ((List.range s.provider.count).filter
        (fun o => (getVector s.provider o).isSome)).length ∧
    ((compact ⟨1, Metric.L2, 16, 50, 6/5,
        ⟨List.replicate 100 0, List.replicate 100 [], 100, [0], 16, 1,
          Metric.L2, none⟩, true, 100⟩
      (fun o => o == 5 || o == 20 || o == 77)).2.length = 97 ∧
      ((0, 0) ∈ (compact ⟨1, Metric.L2, 16, 50, 6/5,
        ⟨List.replicate 100 0, List.replicate 100 [], 100, [0], 16, 1,
          Metric.L2, none⟩, true, 100⟩
        (fun o => o == 5 || o == 20 || o == 77)).2) ∧
      ((6, 5) ∈ (compact ⟨1, Metric.L2, 16, 50, 6/5,
        ⟨List.replicate 100 0, List.replicate 100 [], 100, [0], 16, 1,
          Metric.L2, none⟩, true, 100⟩
        (fun o => o == 5 || o == 20 || o == 77)).2)) := by
  have hmap : (compact s deleted).2 =
      withNew 0 ((List.range s.provider.count).filter
        (fun o => !deleted o && (getVector s.provider o).isSome)) := by
    simp only [compact]
    rw [compact_foldl]
    simp
  refine ⟨hmap, ?_, ?_, ?_, by decide, by decide, by decide⟩
  · rw [hmap]
    have := withNew_map_fst 0 ((List.range s.provider.count).filter
      (fun o => !deleted o && (getVector s.provider o).isSome))
    have hpair : List.Pairwise (· < ·)
        ((List.range s.provider.count).filter
          (fun o => !deleted o && (getVector s.provider o).isSome)) :=
      List.Pairwise.filter _ (List.pairwise_lt_range _)
    rw [this]
    exact hpair
  · rw [hmap, withNew_map_snd, withNew_length]
    simp [List.range_eq_range']
  · rw [hmap, withNew_length]
    exact filter_split_length _ _ _

/-! ### Helper lemmas for the byte-level format -/

lemma le4_length (n : ℕ) : (le4 n).length = 4 := rfl

lemma rd4_le4 (n : ℕ) (hn : n < 4294967296) (rest : List ℕ) :
    rd4 (le4 n ++ rest) = n := by
  have h : le4 n ++ rest = n % 256 :: (n / 256 % 256 ::
      (n / 65536 % 256 :: (n / 16777216 % 256 :: rest))) := rfl
  rw [h]
  show n % 256 + 256 * (n / 256 % 256) + 65536 * (n / 65536 % 256) +
    16777216 * (n / 16777216 % 256) = n
  omega

lemma drop_zero_eq (W X : List ℕ) (h : W = X) : W.drop 0 = X := by
  rw [List.drop_zero, h]

lemma drop_len_append (a b : List ℕ) (n : ℕ) (h : a.length = n) :
    (a ++ b).drop n = b := by
  subst h
  exact List.drop_left a b

lemma drop_addN (W : List ℕ) (k n : ℕ) (P R : List ℕ)
    (hP : P.length = n) (h : W.drop k = P ++ R) : W.drop (k + n) = R := by
  have h2 := List.drop_drop n k W
  rw [h, drop_len_append P R n hP] at h2
  exact h2.symm

lemma getD_drop_zero (l : List ℕ) (n : ℕ) :
    l.getD n 0 = (l.drop n).getD 0 0 := by
  induction n generalizing l with
  | zero => rw [List.drop_zero]
  | succ m ih =>
      cases l with
      | nil => rfl
      | cons a t => rw [List.getD_cons_succ, List.drop_succ_cons]; exact ih t

lemma flatten_map_le4_length (xs : List ℕ) :
    ((xs.map le4).flatten).length = 4 * xs.length := by
  induction xs with
  | nil => rfl
  | cons a t ih =>
      simp only [List.map_cons, List.flatten_cons, List.length_append,
        le4_length, ih, List.length_cons]
      omega

lemma flatten_const_length (blocks : List (List ℕ)) (c : ℕ)
    (h : ∀ b ∈ blocks, b.length = c) :
    blocks.flatten.length = c * blocks.length := by
  induction blocks with
  | nil => rfl
  | cons b bs ih =>
      simp only [List.flatten_cons, List.length_append,
        h b (List.mem_cons_self _ _), List.length_cons,
        ih (fun x hx => h x (List.mem_cons_of_mem _ hx))]
      ring

lemma rd4_flatten (xs : List ℕ) (post : List ℕ) :
    ∀ i, i < xs.length → (∀ x ∈ xs, x < 4294967296) →
      rd4 (((xs.map le4).flatten ++ post).drop (4 * i)) = xs.getD i 0 := by
  induction xs with
  | nil => intro i hi _; cases hi
  | cons a t ih =>
      intro i hi hx
      cases i with
      | zero =>
          simp only [Nat.mul_zero, List.drop_zero, List.map_cons,
            List.flatten_cons, List.append_assoc]
          rw [rd4_le4 a (hx a (List.mem_cons_self _ _)) _]
          rfl
      | succ m =>
          have harith : 4 * (m + 1) = 4 + 4 * m := by omega
          rw [harith, ← List.drop_drop]
          have hd : ((a :: t).map le4).flatten ++ post =
              le4 a ++ ((t.map le4).flatten ++ post) := by
            simp [List.append_assoc]
          rw [hd, drop_len_append (le4 a) _ 4 (le4_length a)]
          rw [List.getD_cons_succ]
          exact ih m (Nat.lt_of_succ_lt_succ hi)
            (fun x hxm => hx x (List.mem_cons_of_mem _ hxm))

lemma drop_flatten_blocks (c : ℕ) :
    ∀ (blocks : List (List ℕ)), (∀ b ∈ blocks, b.length = c) →
      ∀ i, i < blocks.length →
        blocks.flatten.drop (c * i) =
          blocks.getD i [] ++ (blocks.drop (i + 1)).flatten := by
  intro blocks
  induction blocks with
  | nil => intro _ i hi; cases hi
  | cons b bs ih =>
      intro h i hi
      cases i with
      | zero => simp
      | succ m =>
          have harith : c * (m + 1) = c + c * m := by ring
          rw [harith, ← List.drop_drop]
          have hd : (b :: bs).flatten.drop c = bs.flatten := by
            rw [List.flatten_cons]
            exact drop_len_append _ _ c (h b (List.mem_cons_self _ _))
          rw [hd, List.getD_cons_succ, List.drop_succ_cons]
          exact ih (fun x hx => h x (List.mem_cons_of_mem _ hx)) m
            (Nat.lt_of_succ_lt_succ hi)

lemma takeWhile_append_replicate (row : List ℕ) (k : ℕ)
    (hrow : ∀ x ∈ row, x ≠ sentinel) :
    (row ++ List.replicate k sentinel).takeWhile
      (fun v => v ≠ sentinel) = row := by
  induction row with
  | nil =>
      cases k with
      | zero => rfl
      | succ m =>
          simp only [List.nil_append, List.replicate_succ]
          rw [List.takeWhile_cons]
          simp
  | cons a t ih =>
      have ha : a ≠ sentinel := hrow a (List.mem_cons_self _ _)
      simp only [List.cons_append, List.takeWhile_cons]
      rw [if_pos (by simpa using ha)]
      rw [ih (fun x hx => hrow x (List.mem_cons_of_mem _ hx))]

lemma padRow_length (deg : ℕ) (row : List ℕ) :
    (padRow deg row).length = deg := by
  simp only [padRow, List.length_append, List.length_take,
    List.length_replicate]
  omega

/-- C3: deserializing the bytes produced by serializing a detached
in-memory index yields an index identical to the original modulo alpha:
same dimension, metric, max_degree, build_complexity, vector count,
entry points, every vector word byte-for-byte, and every adjacency row
(trailing sentinel padding is trimmed on read). The hypotheses are the
representation invariants of a well-formed index: u32-sized header
fields, u32 entry points and vector words, flat store covering exactly
the live prefix, one row per node of at most max_degree sentinel-free
neighbors. -/
theorem serialize_roundtrip (s : StoredIndex)
    (hcount : s.count < 4294967296)
    (hdim : s.dimension < 4294967296)
    (hdeg : s.max_degree < 4294967296)
    (hbc : s.build_complexity < 4294967296)
    (hneps : s.entry_points.length < 4294967296)
    (heps : ∀ e ∈ s.entry_points, e < 4294967296)
    (hvlen : s.vectors.length = s.count * s.dimension)
    (hvw : ∀ w ∈ s.vectors, w < 4294967296)
    (hadjlen : s.adjacency.length = s.count)
    (hrow : ∀ row ∈ s.adjacency, row.length ≤ s.max_degree ∧
      ∀ x ∈ row, x < sentinel) :
    from_bytes (write_index s) = some s := by
  set W := write_index s with hWdef
  have hvecstake : s.vectors.take (s.count * s.dimension) = s.vectors := by
    rw [← hvlen]
    exact List.take_length s.vectors
  have hW0 : W = magicBytes ++ (le4 2 ++ (le4 s.count ++ (le4 s.dimension ++
      (le4 s.max_degree ++ (le4 s.entry_points.length ++
      ([metricByte s.metric, 0, 0, 0] ++ (le4 s.build_complexity ++
      ((s.entry_points.map le4).flatten ++
      ((s.vectors.map le4).flatten ++
      ((List.range s.count).map (fun i => ((padRow s.max_degree
        (s.adjacency.getD i [])).map le4).flatten)).flatten))))))))) := by
    rw [hWdef]
    simp [write_index, List.append_assoc, hvecstake]
  have d0 := drop_zero_eq W _ hW0
  have d4 : W.drop 4 = _ := drop_addN W 0 4 magicBytes _ rfl d0
  have d8 : W.drop 8 = _ := drop_addN W 4 4 (le4 2) _ (le4_length 2) d4
  have d12 : W.drop 12 = _ := drop_addN W 8 4 (le4 s.count) _ (le4_length _) d8
  have d16 : W.drop 16 = _ :=
    drop_addN W 12 4 (le4 s.dimension) _ (le4_length _) d12
  have d20 : W.drop 20 = _ :=
    drop_addN W 16 4 (le4 s.max_degree) _ (le4_length _) d16
  have d24 : W.drop 24 = _ :=
    drop_addN W 20 4 (le4 s.entry_points.length) _ (le4_length _) d20
  have d28 : W.drop 28 = _ :=
    drop_addN W 24 4 [metricByte s.metric, 0, 0, 0] _ rfl d24
  have d32 : W.drop 32 = _ :=
    drop_addN W 28 4 (le4 s.build_complexity) _ (le4_length _) d28
  have hepsJlen : ((s.entry_points.map le4).flatten).length =
      4 * s.entry_points.length := flatten_map_le4_length _
  have hvecJlen : ((s.vectors.map le4).flatten).length =
      s.count * s.dimension * 4 := by
    rw [flatten_map_le4_length, hvlen]
    ring
  have hblocklen : ∀ b ∈ (List.range s.count).map (fun i =>
      ((padRow s.max_degree (s.adjacency.getD i [])).map le4).flatten),
      b.length = 4 * s.max_degree := by
    intro b hb
    obtain ⟨i, -, rfl⟩ := List.mem_map.mp hb
    rw [flatten_map_le4_length, padRow_length]
  have hadjJlen : (((List.range s.count).map (fun i => ((padRow s.max_degree
      (s.adjacency.getD i [])).map le4).flatten)).flatten).length =
      s.count * s.max_degree * 4 := by
    rw [flatten_const_length _ _ hblocklen]
    simp
    ring
  have hWlen : W.length = 32 + (4 * s.entry_points.length +
      (s.count * s.dimension * 4 + s.count * s.max_degree * 4)) := by
    rw [hW0]
    simp only [List.length_append, List.length_cons, List.length_nil,
      le4_length, magicBytes, hepsJlen, hvecJlen, hadjJlen]
    omega
  have f4 : readLE4 W 4 = 2 := by
    unfold readLE4; rw [d4]; exact rd4_le4 2 (by norm_num) _
  have f8 : readLE4 W 8 = s.count := by
    unfold readLE4; rw [d8]; exact rd4_le4 _ hcount _
  have f12 : readLE4 W 12 = s.dimension := by
    unfold readLE4; rw [d12]; exact rd4_le4 _ hdim _
  have f16 : readLE4 W 16 = s.max_degree := by
    unfold readLE4; rw [d16]; exact rd4_le4 _ hdeg _
  have f20 : readLE4 W 20 = s.entry_points.length := by
    unfold readLE4; rw [d20]; exact rd4_le4 _ hneps _
  have f28 : readLE4 W 28 = s.build_complexity := by
    unfold readLE4; rw [d28]; exact rd4_le4 _ hbc _
  have m24 : W.getD 24 0 = metricByte s.metric := by
    rw [getD_drop_zero, d24]
    rfl
  have htake : W.take 4 = magicBytes := by
    rw [hW0]
    exact List.take_left magicBytes _
  have g1 : ¬ W.length < 32 := by rw [hWlen]; omega
  have gsz1 : ¬ W.length <
      32 + 4 * s.entry_points.length + s.count * s.dimension * 4 := by
    rw [hWlen]; omega
  have gsz2 : ¬ W.length < 32 + 4 * s.entry_points.length +
      s.count * s.dimension * 4 + s.count * s.max_degree * 4 := by
    rw [hWlen]; omega
  have dVec : W.drop (32 + 4 * s.entry_points.length) = _ :=
    drop_addN W 32 (4 * s.entry_points.length)
      ((s.entry_points.map le4).flatten) _ hepsJlen d32
  have dAdj : W.drop (32 + 4 * s.entry_points.length +
      s.count * s.dimension * 4) = _ :=
    drop_addN W (32 + 4 * s.entry_points.length)
      (s.count * s.dimension * 4) ((s.vectors.map le4).flatten) _
      hvecJlen dVec
  simp only [from_bytes]
  rw [if_neg g1, if_neg (show ¬ W.take 4 ≠ magicBytes from fun hc => hc htake),
    if_neg (show ¬ readLE4 W 4 ≠ 2 from fun hc => hc f4)]
  simp only [f8, f12, f16, f20, f28, m24]
  rw [if_neg gsz1, if_neg gsz2]
  have heq_eps : (List.range s.entry_points.length).map
      (fun i => readLE4 W (32 + 4 * i)) = s.entry_points := by
    apply List.ext_getElem (by simp)
    intro i h1 h2
    simp only [List.getElem_map, List.getElem_range]
    unfold readLE4
    rw [← List.drop_drop, d32, rd4_flatten s.entry_points _ i h2 heps]
    exact List.getD_eq_getElem _ _ h2
  have heq_vecs : (List.range (s.count * s.dimension)).map
      (fun j => readLE4 W (32 + 4 * s.entry_points.length + 4 * j)) =
      s.vectors := by
    apply List.ext_getElem (by simp [hvlen])
    intro j h1 h2
    simp only [List.getElem_map, List.getElem_range]
    unfold readLE4
    rw [← List.drop_drop, dVec, rd4_flatten s.vectors _ j h2 hvw]
    exact List.getD_eq_getElem _ _ h2
  have heq_adj : (List.range s.count).map (fun i =>
      ((List.range s.max_degree).map (fun j => readLE4 W
        (32 + 4 * s.entry_points.length + s.count * s.dimension * 4 +
          (i * s.max_degree + j) * 4))).takeWhile
        (fun v => v ≠ sentinel)) = s.adjacency := by
    apply List.ext_getElem (by simp [hadjlen])
    intro i h1 h2
    simp only [List.getElem_map, List.getElem_range]
    have hi_count : i < s.count := by simpa using h1
    have hrowi : s.adjacency.getD i [] = s.adjacency[i] :=
      List.getD_eq_getElem _ _ h2
    have hrow_le : s.adjacency[i].length ≤ s.max_degree :=
      (hrow _ (List.getElem_mem h2)).1
    have hrow_ne : ∀ x ∈ s.adjacency[i], x ≠ sentinel :=
      fun x hx => Nat.ne_of_lt ((hrow _ (List.getElem_mem h2)).2 x hx)
    have hpad_bound : ∀ x ∈ padRow s.max_degree (s.adjacency.getD i []),
        x < 4294967296 := by
      intro x hx
      rcases List.mem_append.mp hx with hx | hx
      · have hx' := (List.take_sublist _ _).subset hx
        rw [hrowi] at hx'
        have := (hrow _ (List.getElem_mem h2)).2 x hx'
        unfold sentinel at this
        omega
      · rw [List.eq_of_mem_replicate hx]
        unfold sentinel
        omega
    have hinner : (List.range s.max_degree).map (fun j => readLE4 W
        (32 + 4 * s.entry_points.length + s.count * s.dimension * 4 +
          (i * s.max_degree + j) * 4)) =
        padRow s.max_degree (s.adjacency.getD i []) := by
      apply List.ext_getElem (by simp [padRow_length])
      intro j hj1 hj2
      simp only [List.getElem_map, List.getElem_range]
      have hj_deg : j < s.max_degree := by simpa using hj1
      have hoff : 32 + 4 * s.entry_points.length +
          s.count * s.dimension * 4 + (i * s.max_degree + j) * 4 =
          32 + 4 * s.entry_points.length + s.count * s.dimension * 4 +
            4 * s.max_degree * i + 4 * j := by ring
      rw [hoff]
      unfold readLE4
      rw [← List.drop_drop, ← List.drop_drop, dAdj,
        drop_flatten_blocks (4 * s.max_degree) _ hblocklen i (by simpa using hi_count),
        getD_map_range _ _ _ hi_count,
        rd4_flatten _ _ j (by rw [padRow_length]; exact hj_deg) hpad_bound]
      exact List.getD_eq_getElem _ _ hj2
    rw [hinner]
    unfold padRow
    rw [hrowi, List.take_of_length_le hrow_le]
    exact takeWhile_append_replicate _ _ hrow_ne
  rw [heq_eps, heq_vecs, heq_adj]
  have hmet : (if metricByte s.metric = 1 then Metric.InnerProduct
      else Metric.L2) = s.metric := by
    cases hm : s.metric <;> simp [metricByte]
  rw [hmet]

/-- Witness for serialize_roundtrip at a concrete one-vector index. -/
theorem serialize_roundtrip_witness :
    from_bytes (write_index ⟨1, Metric.InnerProduct, 2, 50, 1, [0], [7],
      [[0]]⟩) = some ⟨1, Metric.InnerProduct, 2, 50, 1, [0], [7], [[0]]⟩ := by
  apply serialize_roundtrip <;> decide

/-- C10: deserialization never rejects an input because of the metric
byte: whenever magic, version and the segment size checks pass,
from_bytes succeeds, and the metric is InnerProduct exactly when byte 24
is 1 and L2 for every other byte value. -/
theorem metric_byte_never_rejects (data : List ℕ)
    (h1 : ¬ data.length < 32)
    (h2 : data.take 4 = magicBytes)
    (h3 : readLE4 data 4 = 2)
    (h4 : ¬ data.length < 32 + 4 * readLE4 data 20 +
      readLE4 data 8 * readLE4 data 12 * 4)
    (h5 : ¬ data.length < 32 + 4 * readLE4 data 20 +
      readLE4 data 8 * readLE4 data 12 * 4 +
      readLE4 data 8 * readLE4 data 16 * 4) :
    ∃ p : StoredIndex, from_bytes data = some p ∧
      p.metric = (if data.getD 24 0 = 1 then Metric.InnerProduct
        else Metric.L2) ∧
      (data.getD 24 0 ≠ 1 → p.metric = Metric.L2) ∧
      (data.getD 24 0 = 1 → p.metric = Metric.InnerProduct) := by
  simp only [from_bytes]
  rw [if_neg h1, if_neg (show ¬ data.take 4 ≠ magicBytes from fun hc => hc h2),
    if_neg (show ¬ readLE4 data 4 ≠ 2 from fun hc => hc h3),
    if_neg h4, if_neg h5]
  refine ⟨_, rfl, rfl, fun h => ?_, fun h => ?_⟩
  · simp only [if_neg h]
  · simp only [if_pos h]

/-- Witness for metric_byte_never_rejects: a 32-byte image whose metric
byte is the reserved value 7 parses successfully as L2. -/
theorem metric_byte_never_rejects_witness :
    ∃ p : StoredIndex,
      from_bytes [68, 65, 78, 78, 2, 0, 0, 0, 0, 0, 0, 0, 0, 0, 0, 0,
        0, 0, 0, 0, 0, 0, 0, 0, 7, 0, 0, 0, 0, 0, 0, 0] = some p ∧
      p.metric = Metric.L2 := by
  obtain ⟨p, hp, -, hm, -⟩ := metric_byte_never_rejects
    [68, 65, 78, 78, 2, 0, 0, 0, 0, 0, 0, 0, 0, 0, 0, 0,
      0, 0, 0, 0, 0, 0, 0, 0, 7, 0, 0, 0, 0, 0, 0, 0]
    (by decide) (by decide) (by decide) (by decide) (by decide)
  exact ⟨p, hp, hm (by decide)⟩

end DuckdbAnn
